import Mathlib

/-!
Shallow embedding of the tange computation-graph engine
(`tange-core/src/deferred.rs` and `tange-collection/src/lib.rs`),
together with models of the graph / task / scheduler / partition modules
that the spec describes (those modules are not part of the sources here,
so they are modelled from the spec where needed).
-/

set_option maxHeartbeats 1000000

namespace Tange

/-- Closed universe of runtime types used by the development; stands in for
Rust's `TypeId`-tagged `Any` values. -/
inductive Ty : Type where
  | int : Ty
  | nat : Ty
  | pair : Ty → Ty → Ty
  | list : Ty → Ty
deriving DecidableEq

/-- Interpretation of a type code as a Lean type. -/
@[reducible] def Ty.denote : Ty → Type
  | .int => Int
  | .nat => Nat
  | .pair a b => a.denote × b.denote
  | .list a => List a.denote

def Ty.decEqDenote : (c : Ty) → DecidableEq c.denote
  | .int => inferInstanceAs (DecidableEq Int)
  | .nat => inferInstanceAs (DecidableEq Nat)
  | .pair a b =>
      have := Ty.decEqDenote a
      have := Ty.decEqDenote b
      inferInstanceAs (DecidableEq (a.denote × b.denote))
  | .list a =>
      have := Ty.decEqDenote a
      inferInstanceAs (DecidableEq (List a.denote))

instance (c : Ty) : DecidableEq c.denote := Ty.decEqDenote c

/-- Modelled from the spec: the type-erased result container (`BASS`,
a boxed `Any` value annotated with its dynamic type, §3 and §9). -/
structure Dyn : Type where
  c : Ty
  v : c.denote

/-- Modelled from the spec: reading a type-erased value back at an expected
static type; fails (absence) when the dynamic type tag does not match
(`downcast_ref`, §9). -/
def downcast (c : Ty) (d : Dyn) : Option c.denote :=
  if h : d.c = c then some (h ▸ d.v) else none

@[simp] theorem downcast_mk_self (c : Ty) (v : c.denote) :
    downcast c ⟨c, v⟩ = some v := by
  simp [downcast]

theorem downcast_eq_none_of_ne (c : Ty) (d : Dyn) (h : d.c ≠ c) :
    downcast c d = none := by
  simp [downcast, h]

/-- Modelled from the spec: a graph node is either an Input wrapping an
already-available (type-erased) value, or a Task over one or two parent
nodes with a type-erased operation; an operation that cannot interpret its
input yields absence (§3, §4.2). -/
inductive Graph : Type where
  | input : Dyn → Graph
  | task1 : Graph → (Dyn → Option Dyn) → Graph
  | task2 : Graph → Graph → (Dyn → Dyn → Option Dyn) → Graph

/-- Modelled from the spec: `DynFn::new` wraps a typed unary function as a
type-erased operation that downcasts its argument and re-boxes its result
(§9); a failed downcast propagates absence (§4.2). -/
def dynFn (a b : Ty) (f : a.denote → b.denote) : Dyn → Option Dyn :=
  fun d => (downcast a d).map (fun x => ⟨b, f x⟩)

/-- Modelled from the spec: `DynFn2::new`, the binary analogue of `dynFn`. -/
def dynFn2 (a b c : Ty) (f : a.denote → b.denote → c.denote) :
    Dyn → Dyn → Option Dyn :=
  fun d e =>
    (downcast a d).bind (fun x => (downcast b e).map (fun y => ⟨c, f x y⟩))

/-- Modelled from the spec: `Scheduler::compute`. Every scheduler evaluates
each node after its parents and returns the root's type-erased result; both
reference strategies return the same value, which is this recursively
computed one, with absence propagating upward (§4.2, §7). -/
def Graph.eval : Graph → Option Dyn
  | .input v => some v
  | .task1 p f => p.eval.bind f
  | .task2 p q f => p.eval.bind (fun x => q.eval.bind (fun y => f x y))

/-- `Deferred<A>`: a typed handle to a graph node
(`tange-core/src/deferred.rs`, lines 17-21). The phantom type parameter is
the type code `c`. -/
structure Deferred (c : Ty) : Type where
  graph : Graph

/-- `Deferred::lift` (deferred.rs lines 49-55); the optional diagnostic name
has no semantic effect and is omitted. -/
def Deferred.lift (c : Ty) (a : c.denote) : Deferred c :=
  ⟨.input ⟨c, a⟩⟩

/-- `Deferred::apply` (deferred.rs lines 25-33): a unary Task node. -/
def Deferred.apply {a : Ty} (d : Deferred a) (b : Ty)
    (f : a.denote → b.denote) : Deferred b :=
  ⟨.task1 d.graph (dynFn a b f)⟩

/-- `Deferred::join` (deferred.rs lines 35-45): a binary Task node. -/
def Deferred.join {a b : Ty} (d : Deferred a) (e : Deferred b) (c : Ty)
    (f : a.denote → b.denote → c.denote) : Deferred c :=
  ⟨.task2 d.graph e.graph (dynFn2 a b c f)⟩

/-- `Deferred::run` (deferred.rs lines 57-63): ask the scheduler for the
root's type-erased result and downcast it to the statically expected type.
(The `Arc::try_unwrap` step is modelled as always succeeding, per the spec's
account that `run` fails exactly on absence or type mismatch, §4.1.) -/
def Deferred.run {c : Ty} (d : Deferred c) : Option c.denote :=
  d.graph.eval.bind (downcast c)

@[simp] theorem lift_run (c : Ty) (a : c.denote) :
    (Deferred.lift c a).run = some a := by
  simp [Deferred.lift, Deferred.run, Graph.eval]

@[simp] theorem apply_run {a : Ty} (d : Deferred a) (b : Ty)
    (f : a.denote → b.denote) :
    (d.apply b f).run = d.run.map f := by
  simp only [Deferred.apply, Deferred.run, Graph.eval, dynFn]
  cases hev : d.graph.eval with
  | none => rfl
  | some dy =>
    cases hdc : downcast a dy with
    | none => simp [hdc]
    | some x => simp [hdc]

@[simp] theorem join_run {a b c : Ty} (d : Deferred a) (e : Deferred b)
    (f : a.denote → b.denote → c.denote) :
    (d.join e c f).run = d.run.bind (fun x => e.run.map (fun y => f x y)) := by
  simp only [Deferred.join, Deferred.run, Graph.eval, dynFn2]
  cases hev : d.graph.eval with
  | none => simp
  | some dy =>
    cases hev2 : e.graph.eval with
    | none =>
      cases hdc : downcast a dy with
      | none => simp [hdc]
      | some x => simp [hdc]
    | some dy2 =>
      cases hdc : downcast a dy with
      | none => simp [hdc]
      | some x =>
        cases hdc2 : downcast b dy2 with
        | none => simp [hdc, hdc2]
        | some y => simp [hdc, hdc2]

/-- `batch_apply` (deferred.rs lines 66-80): apply `f` to each handle,
passing its position, 1:1 and order-preserving. -/
def batch_apply {a : Ty} (defs : List (Deferred a)) (b : Ty)
    (f : Nat → a.denote → b.denote) : List (Deferred b) :=
  defs.enum.map (fun p => p.2.apply b (f p.1))

/-- One pass of `tree_reduce_until` (deferred.rs lines 105-112): pair up
adjacent elements into join nodes; an odd trailing element carries over. -/
def pairPass {c : Ty} (f : c.denote → c.denote → c.denote) :
    List (Deferred c) → List (Deferred c)
  | a :: b :: rest => a.join b c f :: pairPass f rest
  | l => l

/-- Fuel-instrumented `tree_reduce_until` (deferred.rs lines 93-115). The
outer `none` means the fuel ran out before the recursion finished (the Rust
recursion diverges exactly when that happens for every fuel); the inner
option is the Rust return value. -/
def treeReduceUntilF {c : Ty} (f : c.denote → c.denote → c.denote)
    (parts : Nat) : Nat → List (Deferred c) → Option (Option (List (Deferred c)))
  | 0, _ => none
  | fuel + 1, defs =>
    if defs.length = 0 then some none
    else if defs.length ≤ parts then some (some defs)
    else treeReduceUntilF f parts fuel (pairPass f defs)

/-- `tree_reduce_until` (deferred.rs lines 93-115), run with enough fuel;
`tree_reduce_until_eq_reduceRounds` shows the fuel suffices when
`parts ≥ 1`. -/
def tree_reduce_until {c : Ty} (defs : List (Deferred c)) (parts : Nat)
    (f : c.denote → c.denote → c.denote) : Option (List (Deferred c)) :=
  (treeReduceUntilF f parts (defs.length + 1) defs).getD none

/-- `tree_reduce` (deferred.rs lines 82-91): reduce to one partition and
take the single remaining handle (`defs.remove(0)`). -/
def tree_reduce {c : Ty} (defs : List (Deferred c))
    (f : c.denote → c.denote → c.denote) : Option (Deferred c) :=
  (tree_reduce_until defs 1 f).bind List.head?

@[simp] theorem pairPass_length {c : Ty} (f : c.denote → c.denote → c.denote)
    (l : List (Deferred c)) : (pairPass f l).length = (l.length + 1) / 2 := by
  induction l using pairPass.induct f with
  | case1 a b rest ih => simp [pairPass, ih]; omega
  | case2 l h =>
    cases l with
    | nil => simp [pairPass]
    | cons a t =>
      cases t with
      | nil => simp [pairPass]
      | cons b r => exact absurd rfl (h a b r)

/-- The rounds of `tree_reduce_until`, written as the structurally clean
well-founded recursion that the Rust code performs when `parts ≥ 1`. -/
def reduceRounds {c : Ty} (f : c.denote → c.denote → c.denote) (parts : Nat)
    (hp : 1 ≤ parts) (defs : List (Deferred c)) : List (Deferred c) :=
  if defs.length ≤ parts then defs
  else reduceRounds f parts hp (pairPass f defs)
termination_by defs.length
decreasing_by
  simp only [pairPass_length]
  omega

theorem reduceRounds_length_le {c : Ty} (f : c.denote → c.denote → c.denote)
    (parts : Nat) (hp : 1 ≤ parts) (defs : List (Deferred c)) :
    (reduceRounds f parts hp defs).length ≤ parts := by
  induction defs using reduceRounds.induct f parts hp with
  | case1 defs h => rw [reduceRounds, if_pos h]; exact h
  | case2 defs h ih => rw [reduceRounds, if_neg h]; exact ih

theorem reduceRounds_ne_nil {c : Ty} (f : c.denote → c.denote → c.denote)
    (parts : Nat) (hp : 1 ≤ parts) (defs : List (Deferred c))
    (hne : defs ≠ []) : reduceRounds f parts hp defs ≠ [] := by
  induction defs using reduceRounds.induct f parts hp with
  | case1 defs h => rw [reduceRounds, if_pos h]; exact hne
  | case2 defs h ih =>
    rw [reduceRounds, if_neg h]
    apply ih
    have : defs.length ≠ 0 := by
      intro hz
      exact h (by omega)
    intro hcon
    have := congrArg List.length hcon
    simp only [pairPass_length, List.length_nil] at this
    omega

/-- With `parts ≥ 1` and fuel above the input length, the fuel-instrumented
recursion finishes and agrees with `reduceRounds`. -/
theorem treeReduceUntilF_eq {c : Ty} (f : c.denote → c.denote → c.denote)
    (parts : Nat) (hp : 1 ≤ parts) :
    ∀ (fuel : Nat) (defs : List (Deferred c)), defs.length < fuel → defs ≠ [] →
      treeReduceUntilF f parts fuel defs = some (some (reduceRounds f parts hp defs)) := by
  intro fuel
  induction fuel with
  | zero => intro defs h hne; omega
  | succ n ih =>
    intro defs h hne
    have hlen : defs.length ≠ 0 := by
      intro hz
      exact hne (List.length_eq_zero.mp hz)
    rw [treeReduceUntilF, if_neg hlen]
    by_cases hle : defs.length ≤ parts
    · rw [if_pos hle, reduceRounds, if_pos hle]
    · rw [if_neg hle, reduceRounds, if_neg hle]
      apply ih
      · simp only [pairPass_length]
        omega
      · intro hcon
        have := congrArg List.length hcon
        simp only [pairPass_length, List.length_nil] at this
        omega

theorem tree_reduce_until_eq_reduceRounds {c : Ty}
    (f : c.denote → c.denote → c.denote) (parts : Nat) (hp : 1 ≤ parts)
    (defs : List (Deferred c)) (hne : defs ≠ []) :
    tree_reduce_until defs parts f = some (reduceRounds f parts hp defs) := by
  rw [tree_reduce_until,
    treeReduceUntilF_eq f parts hp (defs.length + 1) defs (by omega) hne]
  rfl

@[simp] theorem tree_reduce_until_nil {c : Ty}
    (f : c.denote → c.denote → c.denote) (parts : Nat) :
    tree_reduce_until ([] : List (Deferred c)) parts f = none := by
  rfl

/-- Value-level shadow of `pairPass`. -/
def pairPassV {α : Type} (f : α → α → α) : List α → List α
  | a :: b :: rest => f a b :: pairPassV f rest
  | l => l

@[simp] theorem pairPassV_length {α : Type} (f : α → α → α) (l : List α) :
    (pairPassV f l).length = (l.length + 1) / 2 := by
  induction l using pairPassV.induct f with
  | case1 a b rest ih => simp [pairPassV, ih]; omega
  | case2 l h =>
    cases l with
    | nil => simp [pairPassV]
    | cons a t =>
      cases t with
      | nil => simp [pairPassV]
      | cons b r => exact absurd rfl (h a b r)

/-- Value-level shadow of `reduceRounds`. -/
def reduceRoundsV {α : Type} (f : α → α → α) (parts : Nat) (hp : 1 ≤ parts)
    (vs : List α) : List α :=
  if vs.length ≤ parts then vs
  else reduceRoundsV f parts hp (pairPassV f vs)
termination_by vs.length
decreasing_by
  simp only [pairPassV_length]
  omega

theorem pairPass_runs {c : Ty} (f : c.denote → c.denote → c.denote) :
    ∀ (defs : List (Deferred c)) (vs : List c.denote),
      defs.map Deferred.run = vs.map some →
      (pairPass f defs).map Deferred.run = (pairPassV f vs).map some := by
  intro defs
  induction defs using pairPass.induct f with
  | case1 a b rest ih =>
    intro vs h
    cases vs with
    | nil => simp at h
    | cons x t =>
      cases t with
      | nil => simp at h
      | cons y vr =>
        simp only [List.map_cons, List.cons.injEq] at h
        obtain ⟨ha, hb, hrest⟩ := h
        simp only [pairPass, pairPassV, List.map_cons, List.cons.injEq]
        refine ⟨?_, ih vr hrest⟩
        rw [join_run, ha, hb]
        rfl
  | case2 l h =>
    intro vs hruns
    cases l with
    | nil =>
      cases vs with
      | nil => simp [pairPass, pairPassV]
      | cons x t => simp at hruns
    | cons a t =>
      cases t with
      | nil =>
        cases vs with
        | nil => simp at hruns
        | cons x t2 =>
          cases t2 with
          | nil => simpa [pairPass, pairPassV] using hruns
          | cons y t3 => simp at hruns
      | cons b r => exact absurd rfl (h a b r)

theorem reduceRounds_runs {c : Ty} (f : c.denote → c.denote → c.denote)
    (parts : Nat) (hp : 1 ≤ parts) :
    ∀ (n : Nat) (defs : List (Deferred c)) (vs : List c.denote),
      defs.length ≤ n →
      defs.map Deferred.run = vs.map some →
      (reduceRounds f parts hp defs).map Deferred.run =
        (reduceRoundsV f parts hp vs).map some := by
  intro n
  induction n with
  | zero =>
    intro defs vs hn h
    have hd : defs = [] := List.length_eq_zero.mp (by omega)
    subst hd
    cases vs with
    | nil => rw [reduceRounds, reduceRoundsV]; simp
    | cons x t => simp at h
  | succ n ih =>
    intro defs vs hn h
    have hlen : defs.length = vs.length := by
      have := congrArg List.length h
      simpa using this
    by_cases hle : defs.length ≤ parts
    · rw [reduceRounds, if_pos hle, reduceRoundsV, if_pos (by omega)]
      exact h
    · rw [reduceRounds, if_neg hle, reduceRoundsV, if_neg (by omega)]
      apply ih
      · simp only [pairPass_length]
        omega
      · exact pairPass_runs f defs vs h

theorem foldl_pairPassV {α : Type} (f : α → α → α)
    (hassoc : ∀ x y z, f (f x y) z = f x (f y z)) :
    ∀ (l : List α) (acc : α), (pairPassV f l).foldl f acc = l.foldl f acc := by
  intro l
  induction l using pairPassV.induct f with
  | case1 a b rest ih =>
    intro acc
    simp only [pairPassV, List.foldl_cons]
    rw [ih, hassoc]
  | case2 l h =>
    cases l with
    | nil => intro acc; rfl
    | cons a t =>
      cases t with
      | nil => intro acc; rfl
      | cons b r => exact absurd rfl (h a b r)

theorem reduceRoundsV_cons {α : Type} (f : α → α → α)
    (hassoc : ∀ x y z, f (f x y) z = f x (f y z)) (hp : 1 ≤ 1) :
    ∀ (n : Nat) (rest : List α), rest.length ≤ n → ∀ (a : α),
      reduceRoundsV f 1 hp (a :: rest) = [rest.foldl f a] := by
  intro n
  induction n with
  | zero =>
    intro rest hn a
    have hr : rest = [] := List.length_eq_zero.mp (by omega)
    subst hr
    rw [reduceRoundsV]
    simp
  | succ n ih =>
    intro rest hn a
    cases rest with
    | nil =>
      rw [reduceRoundsV]
      simp
    | cons b r =>
      rw [reduceRoundsV, if_neg (by simp)]
      have hpv : pairPassV f (a :: b :: r) = f a b :: pairPassV f r := rfl
      rw [hpv, ih (pairPassV f r) (by simp only [pairPassV_length]; simp at hn; omega) (f a b)]
      rw [foldl_pairPassV f hassoc]
      rfl

/-- Running the result of `tree_reduce`: when every input handle evaluates
successfully, the reduced handle evaluates to the left fold of the values
(for an associative combine). -/
theorem tree_reduce_run {c : Ty} (f : c.denote → c.denote → c.denote)
    (hassoc : ∀ x y z, f (f x y) z = f x (f y z))
    (defs : List (Deferred c)) (a : c.denote) (rest : List c.denote)
    (h : defs.map Deferred.run = (a :: rest).map some) :
    ∃ d, tree_reduce defs f = some d ∧ d.run = some (rest.foldl f a) := by
  have hne : defs ≠ [] := by
    intro hcon
    subst hcon
    simp at h
  rw [tree_reduce, tree_reduce_until_eq_reduceRounds f 1 le_rfl defs hne]
  have hruns := reduceRounds_runs f 1 le_rfl defs.length defs (a :: rest) le_rfl h
  rw [reduceRoundsV_cons f hassoc le_rfl rest.length rest le_rfl a] at hruns
  cases hred : reduceRounds f 1 le_rfl defs with
  | nil => rw [hred] at hruns; simp at hruns
  | cons d t =>
    rw [hred] at hruns
    cases t with
    | nil =>
      simp only [List.map_cons, List.map_nil, List.cons.injEq] at hruns
      exact ⟨d, rfl, hruns.1⟩
    | cons d2 t2 => simp at hruns

/-- `Collection<A>` (lib.rs lines 17-20): an ordered sequence of deferred
partitions. -/
structure Collection (c : Ty) : Type where
  partitions : List (Deferred (Ty.list c))

/-- `Collection::from_vec` (lib.rs lines 23-27). -/
def Collection.from_vec (c : Ty) (vs : List c.denote) : Collection c :=
  ⟨[Deferred.lift (.list c) vs]⟩

/-- `Collection::n_partitions` (lib.rs lines 29-31). -/
def Collection.n_partitions {c : Ty} (col : Collection c) : Nat :=
  col.partitions.length

/-- `Collection::concat` (lib.rs lines 33-40). -/
def Collection.concat {c : Ty} (col other : Collection c) : Collection c :=
  ⟨col.partitions ++ other.partitions⟩

/-- `Collection::run` (lib.rs lines 114-123): concatenate all partitions
with `tree_reduce` and evaluate the resulting single handle. -/
def Collection.run {c : Ty} (col : Collection c) : Option (List c.denote) :=
  (tree_reduce col.partitions (fun x y => x ++ y)).bind Deferred.run

/-- `Collection::count` (lib.rs lines 142-148). The Rust code calls
`.unwrap()` on the `tree_reduce` result, which panics when there are no
partitions; the panic is modelled as `none`. -/
def Collection.count {c : Ty} (col : Collection c) : Option (Collection .nat) :=
  let nps := batch_apply col.partitions .nat (fun _ vs => vs.length)
  (tree_reduce nps (fun x y => x + y)).map
    (fun cnt => ⟨[cnt.apply (.list .nat) (fun x => [x])]⟩)

/-- `Collection::sort_by` (lib.rs lines 101-111): sort each partition
independently by the key (Rust's stable `sort_by_key`, modelled with
`mergeSort`). -/
def Collection.sort_by {c : Ty} {κ : Type} [LinearOrder κ]
    (col : Collection c) (key : c.denote → κ) : Collection c :=
  ⟨batch_apply col.partitions (.list c)
    (fun _ vs => vs.mergeSort (fun x y => decide (key x ≤ key y)))⟩

theorem batch_apply_length {a b : Ty} (defs : List (Deferred a))
    (f : Nat → a.denote → b.denote) :
    (batch_apply defs b f).length = defs.length := by
  simp [batch_apply]

theorem batch_apply_get {a b : Ty} (defs : List (Deferred a))
    (f : Nat → a.denote → b.denote) (i : Nat) (hi : i < defs.length)
    (hi2 : i < (batch_apply defs b f).length) :
    (batch_apply defs b f).get ⟨i, hi2⟩ = (defs.get ⟨i, hi⟩).apply b (f i) := by
  simp [batch_apply, List.getElem_enum]

theorem map_get_eq {α β : Type} (l : List α) (g : α → Option β)
    (vs : List β) (h : l.map g = vs.map some) (i : Nat) (hi : i < l.length)
    (hi2 : i < vs.length) : g (l.get ⟨i, hi⟩) = some (vs.get ⟨i, hi2⟩) := by
  have h1 := congrArg (fun t => t[i]?) h
  simp only [List.getElem?_map] at h1
  rw [List.getElem?_eq_getElem hi, List.getElem?_eq_getElem hi2] at h1
  simpa using h1

theorem batch_apply_getElem {a b : Ty} (defs : List (Deferred a))
    (f : Nat → a.denote → b.denote) (i : Nat) (hi : i < defs.length)
    (hi2 : i < (batch_apply defs b f).length) :
    (batch_apply defs b f)[i] = defs[i].apply b (f i) := by
  simp [batch_apply, List.getElem_enum]

theorem map_getElem_eq {α β : Type} (l : List α) (g : α → Option β)
    (vs : List β) (h : l.map g = vs.map some) (i : Nat) (hi : i < l.length)
    (hi2 : i < vs.length) : g l[i] = some vs[i] := by
  have h1 := congrArg (fun t => t[i]?) h
  simp only [List.getElem?_map] at h1
  rw [List.getElem?_eq_getElem hi, List.getElem?_eq_getElem hi2] at h1
  simpa using h1

theorem batch_apply_runs {a b : Ty} (defs : List (Deferred a))
    (f : Nat → a.denote → b.denote) (vs : List a.denote)
    (h : defs.map Deferred.run = vs.map some) :
    (batch_apply defs b f).map Deferred.run =
      (vs.enum.map (fun p => f p.1 p.2)).map some := by
  have hlen : defs.length = vs.length := by
    have := congrArg List.length h
    simpa using this
  apply List.ext_get
  · simp [batch_apply, hlen]
  · intro i h1 h2
    have hi : i < defs.length := by
      simpa [batch_apply] using h1
    have hiv : i < vs.length := by omega
    simp only [List.get_eq_getElem, List.getElem_map]
    rw [batch_apply_getElem defs f i hi (by simpa using h1)]
    rw [apply_run, map_getElem_eq defs Deferred.run vs h i hi hiv]
    simp [List.getElem_enum]

/-- Index-independent special case of `batch_apply_runs`. -/
theorem batch_apply_runs_const {a : Ty} (b : Ty) (defs : List (Deferred a))
    (g : a.denote → b.denote) (vs : List a.denote)
    (h : defs.map Deferred.run = vs.map some) :
    (batch_apply defs b (fun _ x => g x)).map Deferred.run =
      (vs.map g).map some := by
  rw [batch_apply_runs defs (fun _ x => g x) vs h]
  congr 1
  calc vs.enum.map (fun p => g p.2)
      = (vs.enum.map Prod.snd).map g := by rw [List.map_map]; rfl
    _ = vs.map g := by rw [List.enum_map_snd]

theorem foldl_append_join {α : Type} :
    ∀ (l : List (List α)) (a : List α), l.foldl (· ++ ·) a = a ++ l.flatten := by
  intro l
  induction l with
  | nil => intro a; simp
  | cons x t ih =>
    intro a
    simp only [List.foldl_cons, List.flatten_cons, ih, List.append_assoc]

theorem foldl_add_sum {M : Type} [AddCommMonoid M] :
    ∀ (l : List M) (a : M), l.foldl (· + ·) a = a + l.sum := by
  intro l
  induction l with
  | nil => intro a; simp
  | cons x t ih =>
    intro a
    simp only [List.foldl_cons, List.sum_cons, ih, add_assoc]

/-- Evaluating a `Collection`-style concatenation: when every partition
evaluates successfully, the whole reduction evaluates to the in-order
concatenation. -/
theorem run_values {c : Ty} (ps : List (Deferred (Ty.list c)))
    (vals : List (List c.denote))
    (h : ps.map Deferred.run = vals.map some) (hne : vals ≠ []) :
    (Collection.mk ps).run = some vals.flatten := by
  cases vals with
  | nil => exact absurd rfl hne
  | cons a rest =>
    obtain ⟨d, hd, hrun⟩ :=
      tree_reduce_run (fun x y => x ++ y) (fun x y z => List.append_assoc x y z)
        ps a rest h
    rw [Collection.run]
    show (tree_reduce ps (fun x y => x ++ y)).bind Deferred.run =
      some (a :: rest).flatten
    rw [hd]
    show d.run = some (a :: rest).flatten
    rw [hrun, foldl_append_join]
    rfl

theorem run_nil_partitions {c : Ty} :
    (Collection.mk ([] : List (Deferred (Ty.list c)))).run = none := by
  rfl

theorem pairPass_none_mem {c : Ty} (f : c.denote → c.denote → c.denote) :
    ∀ (defs : List (Deferred c)) (d : Deferred c), d ∈ defs → d.run = none →
      ∃ d2, d2 ∈ pairPass f defs ∧ d2.run = none := by
  intro defs
  induction defs using pairPass.induct f with
  | case1 a b rest ih =>
    intro d hmem hnone
    have hunfold : pairPass f (a :: b :: rest) = a.join b c f :: pairPass f rest := rfl
    rw [hunfold]
    rcases List.mem_cons.mp hmem with heq | hm
    · subst heq
      refine ⟨d.join b c f, List.mem_cons_self _ _, ?_⟩
      rw [join_run, hnone]
      rfl
    · rcases List.mem_cons.mp hm with heq | hm2
      · subst heq
        refine ⟨a.join d c f, List.mem_cons_self _ _, ?_⟩
        rw [join_run]
        cases a.run with
        | none => rfl
        | some x => rw [hnone]; rfl
      · obtain ⟨d2, hd2, hr⟩ := ih d hm2 hnone
        exact ⟨d2, List.mem_cons_of_mem _ hd2, hr⟩
  | case2 l h =>
    intro d hmem hnone
    cases l with
    | nil => simp at hmem
    | cons a t =>
      cases t with
      | nil => exact ⟨d, by simpa [pairPass] using hmem, hnone⟩
      | cons b r => exact absurd rfl (h a b r)

theorem reduceRounds_none_mem {c : Ty} (f : c.denote → c.denote → c.denote)
    (parts : Nat) (hp : 1 ≤ parts) :
    ∀ (defs : List (Deferred c)) (d : Deferred c), d ∈ defs → d.run = none →
      ∃ d2, d2 ∈ reduceRounds f parts hp defs ∧ d2.run = none := by
  intro defs
  induction defs using reduceRounds.induct f parts hp with
  | case1 defs hle =>
    intro d hmem hnone
    rw [reduceRounds, if_pos hle]
    exact ⟨d, hmem, hnone⟩
  | case2 defs hle ih =>
    intro d hmem hnone
    rw [reduceRounds, if_neg hle]
    obtain ⟨d2, hd2, hr⟩ := pairPass_none_mem f defs d hmem hnone
    exact ih d2 hd2 hr

/-- A failing partition makes the whole `Collection::run` fail. -/
theorem run_none_of_mem_none {c : Ty} (ps : List (Deferred (Ty.list c)))
    (d : Deferred (Ty.list c)) (hmem : d ∈ ps) (hnone : d.run = none) :
    (Collection.mk ps).run = none := by
  have hne : ps ≠ [] := by
    intro hcon
    subst hcon
    simp at hmem
  rw [Collection.run]
  show (tree_reduce ps (fun x y => x ++ y)).bind Deferred.run = none
  rw [tree_reduce,
    tree_reduce_until_eq_reduceRounds (fun x y => x ++ y) 1 le_rfl ps hne]
  obtain ⟨d2, hd2, hr⟩ :=
    reduceRounds_none_mem (fun x y => x ++ y) 1 le_rfl ps d hmem hnone
  have hlen := reduceRounds_length_le (fun x y => x ++ y) 1 le_rfl ps
  cases hred : reduceRounds (fun x y => x ++ y) 1 le_rfl ps with
  | nil =>
    rw [hred] at hd2
    simp at hd2
  | cons t rest =>
    rw [hred] at hd2 hlen
    cases rest with
    | nil =>
      simp only [List.mem_singleton] at hd2
      subst hd2
      simp [hr]
    | cons u rest2 => simp at hlen

theorem tree_reduce_singleton {c : Ty} (d : Deferred c)
    (f : c.denote → c.denote → c.denote) : tree_reduce [d] f = some d := by
  rfl

/-- C1: for every non-empty list of lifted integer values, running the
Deferred produced by `tree_reduce` with integer addition yields `some` of
the total sum of the list. -/
theorem tree_reduce_int_sum (vs : List Int) (hne : vs ≠ []) :
    ∃ d, tree_reduce (vs.map (Deferred.lift .int)) (fun x y => x + y) = some d ∧
      d.run = some vs.sum := by
  cases vs with
  | nil => exact absurd rfl hne
  | cons a rest =>
    have h : ((a :: rest).map (Deferred.lift .int)).map Deferred.run =
        ((a : Int) :: rest).map some := by
      simp [List.map_map, Function.comp_def]
    obtain ⟨d, hd, hrun⟩ :=
      tree_reduce_run (fun x y => x + y) (fun x y z => add_assoc x y z) _ a rest h
    refine ⟨d, hd, ?_⟩
    rw [hrun, foldl_add_sum]
    simp

theorem two_mul_range_sum : ∀ n : Nat, 2 * (List.range n).sum = n * (n - 1) := by
  intro n
  induction n with
  | zero => rfl
  | succ m ih =>
    rw [List.range_succ, List.sum_append]
    simp only [List.sum_cons, List.sum_nil, Nat.add_zero]
    have hexp : 2 * ((List.range m).sum + m) = 2 * (List.range m).sum + 2 * m := by
      ring
    rw [hexp, ih]
    cases m with
    | zero => rfl
    | succ k =>
      simp only [Nat.add_sub_cancel]
      ring

/-- C1 witness: summing the lifted integers 0..999 yields 499500. -/
theorem tree_reduce_int_sum_witness :
    ((List.range 1000).map Int.ofNat) ≠ [] ∧
    ∃ d, tree_reduce (((List.range 1000).map Int.ofNat).map
        (Deferred.lift .int)) (fun x y => x + y) = some d ∧
      d.run = some 499500 := by
  have hne : ((List.range 1000).map Int.ofNat) ≠ [] := by
    intro hcon
    rw [List.map_eq_nil_iff] at hcon
    have : (List.range 1000).length = 0 := by rw [hcon]; rfl
    simp at this
  refine ⟨hne, ?_⟩
  have h := tree_reduce_int_sum ((List.range 1000).map Int.ofNat) hne
  have hnat : (List.range 1000).sum = 499500 := by
    have := two_mul_range_sum 1000
    omega
  have hcast : ∀ l : List Nat, (l.map Int.ofNat).sum = (l.sum : Int) :=
    fun l => (Nat.cast_list_sum l).symm
  have hs : ((List.range 1000).map Int.ofNat).sum = 499500 := by
    rw [hcast (List.range 1000), hnat]
    simp
  rwa [hs] at h

/-- C2: `Collection::run` returns `some` of the in-order concatenation of
all partitions' contents when every partition evaluates; it returns `none`
when there are no partitions or when some partition fails to evaluate. -/
theorem collection_run_spec {c : Ty} (col : Collection c) :
    (∀ vals : List (List c.denote),
        col.partitions.map Deferred.run = vals.map some → col.partitions ≠ [] →
        col.run = some vals.flatten) ∧
    (col.partitions = [] → col.run = none) ∧
    (∀ d, d ∈ col.partitions → d.run = none → col.run = none) := by
  obtain ⟨ps⟩ := col
  refine ⟨?_, ?_, ?_⟩
  · intro vals h hne
    have hvne : vals ≠ [] := by
      intro hcon
      subst hcon
      simp only [List.map_nil, List.map_eq_nil_iff] at h
      exact hne h
    exact run_values ps vals h hvne
  · intro h
    subst h
    exact run_nil_partitions
  · intro d hmem hnone
    exact run_none_of_mem_none ps d hmem hnone

/-- C2 witness: a two-partition collection concatenates in partition
order. -/
theorem collection_run_spec_witness :
    (Collection.mk [Deferred.lift (Ty.list Ty.int) [1, 2],
      Deferred.lift (Ty.list Ty.int) [3]]).run = some [1, 2, 3] := by
  have h := (collection_run_spec (Collection.mk
      [Deferred.lift (Ty.list Ty.int) [1, 2],
       Deferred.lift (Ty.list Ty.int) [3]])).1 [[1, 2], [3]]
    (by simp) (by simp)
  simpa using h

/-- C4 counterexample: on a collection with zero partitions, `count` does
not return 0 — the Rust code unwraps `tree_reduce`'s `None` and panics
(modelled as `none`). -/
theorem count_zero_partitions_counterexample :
    (Collection.mk ([] : List (Deferred (Ty.list Ty.int)))).count = none := by
  rfl

/-- C4 (amended): for every collection with at least one partition whose
partitions all evaluate, `count` returns a single-partition collection
whose sole element is the total element count; with zero partitions the
code panics instead of returning 0. -/
theorem count_spec {c : Ty} (col : Collection c) (vals : List (List c.denote))
    (h : col.partitions.map Deferred.run = vals.map some)
    (hne : col.partitions ≠ []) :
    ∃ out, col.count = some out ∧ out.partitions.length = 1 ∧
      out.run = some [(vals.map List.length).sum] := by
  have hruns := batch_apply_runs_const .nat col.partitions
    (fun vs => vs.length) vals h
  cases vals with
  | nil =>
    simp only [List.map_nil, List.map_eq_nil_iff] at h
    exact absurd h hne
  | cons v vrest =>
    obtain ⟨d, hd, hrun⟩ :=
      tree_reduce_run (fun x y => x + y) (fun x y z => Nat.add_assoc x y z)
        (batch_apply col.partitions .nat (fun _ vs => vs.length))
        v.length (vrest.map List.length) (by simpa using hruns)
    refine ⟨⟨[d.apply (.list .nat) (fun x => [x])]⟩, ?_, rfl, ?_⟩
    · show (tree_reduce (batch_apply col.partitions .nat (fun _ vs => vs.length))
          (fun x y => x + y)).map
          (fun cnt => Collection.mk [cnt.apply (.list .nat) (fun x => [x])]) = _
      rw [hd]
      rfl
    · rw [Collection.run]
      show (tree_reduce [d.apply (.list .nat) (fun x => [x])]
          (fun x y => x ++ y)).bind Deferred.run = _
      rw [tree_reduce_singleton]
      show (d.apply (.list .nat) (fun x => [x])).run = _
      rw [apply_run, hrun, foldl_add_sum]
      simp

/-- C4 witness for the amended claim: a two-partition collection with three
elements counts to 3. -/
theorem count_spec_witness :
    ∃ out, (Collection.mk [Deferred.lift (Ty.list Ty.int) [5, 6],
        Deferred.lift (Ty.list Ty.int) [7]]).count = some out ∧
      out.partitions.length = 1 ∧ out.run = some [3] := by
  have h := count_spec (Collection.mk
      [Deferred.lift (Ty.list Ty.int) [5, 6],
       Deferred.lift (Ty.list Ty.int) [7]]) [[5, 6], [7]]
    (by simp) (by simp)
  simpa using h

/-- C5: for non-empty input and `targetCount ≥ 1`, `tree_reduce_until`
performs rounds of adjacent pairing (`pairPass`), carrying an odd trailing
element over, stops as soon as the remaining count is at most the target,
and returns `some` of that many handles. -/
theorem tree_reduce_until_spec {c : Ty} (f : c.denote → c.denote → c.denote)
    (defs : List (Deferred c)) (parts : Nat) (hp : 1 ≤ parts)
    (hne : defs ≠ []) :
    ∃ out, tree_reduce_until defs parts f = some out ∧
      out = reduceRounds f parts hp defs ∧
      (defs.length ≤ parts → out = defs) ∧
      (parts < defs.length → out = reduceRounds f parts hp (pairPass f defs)) ∧
      1 ≤ out.length ∧ out.length ≤ parts := by
  refine ⟨reduceRounds f parts hp defs,
    tree_reduce_until_eq_reduceRounds f parts hp defs hne, rfl, ?_, ?_, ?_,
    reduceRounds_length_le f parts hp defs⟩
  · intro h
    rw [reduceRounds, if_pos h]
  · intro h
    rw [reduceRounds, if_neg (by omega)]
  · exact List.length_pos.mpr (reduceRounds_ne_nil f parts hp defs hne)

/-- C5 witness: three handles reduced until at most two remain. -/
theorem tree_reduce_until_spec_witness :
    ∃ out, tree_reduce_until
        [Deferred.lift Ty.int 1, Deferred.lift Ty.int 2, Deferred.lift Ty.int 3]
        2 (fun x y => x + y) = some out ∧
      1 ≤ out.length ∧ out.length ≤ 2 := by
  obtain ⟨out, h1, _, _, _, h5, h6⟩ :=
    tree_reduce_until_spec (fun x y => x + y)
      [Deferred.lift Ty.int 1, Deferred.lift Ty.int 2, Deferred.lift Ty.int 3]
      2 (by omega) (by simp)
  exact ⟨out, h1, h5, h6⟩

/-- C6: `tree_reduce` returns `none` exactly on empty input, and `some` of
a single handle on non-empty input. -/
theorem tree_reduce_none_iff {c : Ty} (f : c.denote → c.denote → c.denote)
    (defs : List (Deferred c)) :
    (tree_reduce defs f = none ↔ defs = []) ∧
    (defs ≠ [] → ∃ d, tree_reduce defs f = some d) := by
  have hsome : defs ≠ [] → ∃ d, tree_reduce defs f = some d := by
    intro hne
    rw [tree_reduce, tree_reduce_until_eq_reduceRounds f 1 le_rfl defs hne]
    have hnn := reduceRounds_ne_nil f 1 le_rfl defs hne
    cases hred : reduceRounds f 1 le_rfl defs with
    | nil => exact absurd hred hnn
    | cons t rest => exact ⟨t, by simp⟩
  refine ⟨⟨?_, ?_⟩, hsome⟩
  · intro hnone
    by_contra hne
    obtain ⟨d, hd⟩ := hsome hne
    rw [hd] at hnone
    exact Option.noConfusion hnone
  · intro h
    subst h
    rfl

/-- C6 witness: empty input gives `none`, a singleton input gives `some`. -/
theorem tree_reduce_none_iff_witness :
    tree_reduce ([] : List (Deferred Ty.int)) (fun x y => x + y) = none ∧
    ∃ d, tree_reduce [Deferred.lift Ty.int 5] (fun x y => x + y) = some d :=
  ⟨(tree_reduce_none_iff (fun x y => x + y) []).1.mpr rfl,
   (tree_reduce_none_iff (fun x y => x + y) [Deferred.lift Ty.int 5]).2
     (by simp)⟩

/-- C7: `Deferred::run` is `none` exactly when the scheduler yields no
result or the type-erased result's dynamic type differs from the expected
static type; when the dynamic type matches, `run` returns the value. -/
theorem run_type_mismatch_spec {c : Ty} (d : Deferred c) :
    (d.run = none ↔
      d.graph.eval = none ∨ ∃ v, d.graph.eval = some v ∧ v.c ≠ c) ∧
    (∀ x : c.denote, d.graph.eval = some ⟨c, x⟩ → d.run = some x) := by
  constructor
  · show d.graph.eval.bind (downcast c) = none ↔ _
    cases hev : d.graph.eval with
    | none => simp
    | some v =>
      simp only [Option.some_bind, Option.some.injEq, reduceCtorEq, false_or]
      by_cases hc : v.c = c
      · rw [downcast, dif_pos hc]
        constructor
        · intro hcon
          exact Option.noConfusion hcon
        · rintro ⟨w, hw, hwc⟩
          cases hw
          exact absurd hc hwc
      · rw [downcast, dif_neg hc]
        exact ⟨fun _ => ⟨v, rfl, hc⟩, fun _ => rfl⟩
  · intro x hev
    show d.graph.eval.bind (downcast c) = some x
    rw [hev]
    simp

/-- C7 witness: a handle whose node carries the wrong dynamic type runs to
`none`; a well-typed lift runs to `some` of its value. -/
theorem run_type_mismatch_spec_witness :
    (Deferred.mk (Graph.input ⟨Ty.nat, 5⟩) : Deferred Ty.int).run = none ∧
    (Deferred.lift Ty.int 3).run = some 3 :=
  ⟨(run_type_mismatch_spec
      (Deferred.mk (Graph.input ⟨Ty.nat, 5⟩) : Deferred Ty.int)).1.mpr
      (Or.inr ⟨⟨Ty.nat, 5⟩, rfl, by decide⟩),
   (run_type_mismatch_spec (Deferred.lift Ty.int 3)).2 3 rfl⟩

/-- C9: `batch_apply` is 1:1 and order-preserving: same length, and the
i-th output is a new unary task applying `f` with partition index `i` to
the i-th input. -/
theorem batch_apply_spec {a b : Ty} (defs : List (Deferred a))
    (f : Nat → a.denote → b.denote) :
    (batch_apply defs b f).length = defs.length ∧
    ∀ i (hi : i < defs.length) (hi2 : i < (batch_apply defs b f).length),
      (batch_apply defs b f).get ⟨i, hi2⟩ = (defs.get ⟨i, hi⟩).apply b (f i) :=
  ⟨batch_apply_length defs f,
   fun i hi hi2 => batch_apply_get defs f i hi hi2⟩

/-- C9 witness: the single output of a singleton `batch_apply` is the
input's `apply` at index 0. -/
theorem batch_apply_spec_witness :
    (batch_apply [Deferred.lift Ty.int 10] Ty.int
        (fun i x => x + Int.ofNat i)).length = 1 ∧
    (batch_apply [Deferred.lift Ty.int 10] Ty.int
        (fun i x => x + Int.ofNat i)).get ⟨0, by simp [batch_apply]⟩ =
      (Deferred.lift Ty.int 10).apply Ty.int (fun x => x + Int.ofNat 0) := by
  obtain ⟨h1, h2⟩ :=
    batch_apply_spec [Deferred.lift Ty.int 10] (fun i x => x + Int.ofNat i)
  exact ⟨h1, h2 0 (by simp) (by simp [batch_apply])⟩

/-- C10: with `parts = 0` and non-empty input the `tree_reduce_until`
recursion never finishes for any amount of fuel; with `parts ≥ 1` or empty
input it finishes. -/
theorem tree_reduce_until_termination {c : Ty}
    (f : c.denote → c.denote → c.denote) :
    (∀ defs : List (Deferred c), defs ≠ [] → ∀ fuel,
        treeReduceUntilF f 0 fuel defs = none) ∧
    (∀ (defs : List (Deferred c)) (parts : Nat), 1 ≤ parts ∨ defs = [] →
        ∃ fuel, (treeReduceUntilF f parts fuel defs).isSome) := by
  constructor
  · intro defs hne fuel
    induction fuel generalizing defs with
    | zero => rfl
    | succ n ih =>
      have hlen : defs.length ≠ 0 := fun hz => hne (List.length_eq_zero.mp hz)
      rw [treeReduceUntilF, if_neg hlen, if_neg (by omega)]
      apply ih
      intro hcon
      have := congrArg List.length hcon
      simp only [pairPass_length, List.length_nil] at this
      omega
  · intro defs parts hc
    rcases hc with hp | hnil
    · by_cases hne : defs = []
      · subst hne
        exact ⟨1, rfl⟩
      · refine ⟨defs.length + 1, ?_⟩
        rw [treeReduceUntilF_eq f parts hp (defs.length + 1) defs (by omega) hne]
        rfl
    · subst hnil
      exact ⟨1, rfl⟩

/-- C10 witness: `parts = 0` on a singleton input exhausts any fuel;
`parts = 1` finishes. -/
theorem tree_reduce_until_termination_witness :
    treeReduceUntilF (fun x y => x + y) 0 5 [Deferred.lift Ty.int 3] = none ∧
    ∃ fuel, (treeReduceUntilF (fun x y => x + y) 1 fuel
        [Deferred.lift Ty.int 3]).isSome :=
  ⟨(tree_reduce_until_termination (fun x y => x + y)).1
      [Deferred.lift Ty.int 3] (by simp) 5,
   (tree_reduce_until_termination (fun x y => x + y)).2
      [Deferred.lift Ty.int 3] 1 (Or.inl le_rfl)⟩

/-- C8: `sort_by` sorts each partition independently by the key function,
keeping the number of partitions and each partition's multiset of elements
unchanged; no cross-partition order is imposed. -/
theorem sort_by_spec {c : Ty} {κ : Type} [LinearOrder κ]
    (col : Collection c) (key : c.denote → κ) :
    (col.sort_by key).partitions.length = col.partitions.length ∧
    ∀ i (hi : i < col.partitions.length)
      (hi2 : i < (col.sort_by key).partitions.length) (l : List c.denote),
      (col.partitions.get ⟨i, hi⟩).run = some l →
      ∃ l2, ((col.sort_by key).partitions.get ⟨i, hi2⟩).run = some l2 ∧
        l2.Perm l ∧ l2.Pairwise (fun x y => key x ≤ key y) := by
  constructor
  · exact @batch_apply_length (.list c) (.list c) col.partitions
      (fun _ vs => vs.mergeSort (fun x y => decide (key x ≤ key y)))
  · intro i hi hi2 l hl
    have hget : ((col.sort_by key).partitions).get ⟨i, hi2⟩ =
        (col.partitions.get ⟨i, hi⟩).apply (.list c)
          (fun vs => vs.mergeSort (fun x y => decide (key x ≤ key y))) :=
      @batch_apply_get (.list c) (.list c) col.partitions
        (fun _ vs => vs.mergeSort (fun x y => decide (key x ≤ key y))) i hi hi2
    refine ⟨l.mergeSort (fun x y => decide (key x ≤ key y)), ?_, ?_, ?_⟩
    · rw [hget, apply_run, hl]
      rfl
    · exact List.mergeSort_perm l _
    · have htrans : ∀ (x y z : c.denote),
          decide (key x ≤ key y) → decide (key y ≤ key z) →
            decide (key x ≤ key z) := by
        intro x y z h1 h2
        simp only [decide_eq_true_eq] at h1 h2 ⊢
        exact le_trans h1 h2
      have htotal : ∀ (x y : c.denote),
          decide (key x ≤ key y) || decide (key y ≤ key x) := by
        intro x y
        simp only [Bool.or_eq_true, decide_eq_true_eq]
        exact le_total (key x) (key y)
      have hs := List.sorted_mergeSort htrans htotal l
      exact hs.imp (fun h => by simpa using h)

/-- C8 witness: sorting the single partition `[3, 1, 2]` by the identity
key yields an ordered permutation. -/
theorem sort_by_spec_witness :
    ∃ l2, (((Collection.from_vec Ty.int [3, 1, 2]).sort_by
        (fun x => x)).partitions.get
        ⟨0, by simp [Collection.sort_by, Collection.from_vec, batch_apply]⟩).run
        = some l2 ∧
      l2.Perm [3, 1, 2] ∧ l2.Pairwise (fun x y => x ≤ y) := by
  obtain ⟨_, h2⟩ :=
    sort_by_spec (Collection.from_vec Ty.int [3, 1, 2]) (fun x => x)
  exact h2 0 (by simp [Collection.from_vec])
    (by simp [Collection.sort_by, Collection.from_vec, batch_apply]) [3, 1, 2]
    (by simp [Collection.from_vec])

/-- Modelled from the spec: one step of per-partition local grouping for
`fold_by` (§4.4 step 1, missing partition module): fold element `x` with
key `k` into an association list, seeding a fresh key with `default`. -/
def updateAssoc {α κ β : Type} [DecidableEq κ] (comb : β → α → β)
    (default : β) (k : κ) (x : α) : List (κ × β) → List (κ × β)
  | [] => [(k, comb default x)]
  | (k2, b2) :: rest =>
      if k2 = k then (k2, comb b2 x) :: rest
      else (k2, b2) :: updateAssoc comb default k x rest

/-- Modelled from the spec: group a sequence by key and fold each group
with `default` as seed and `comb` as the per-element step (§4.4 step 1). -/
def groupFold {α κ β : Type} [DecidableEq κ] (key : α → κ) (default : β)
    (comb : β → α → β) (xs : List α) : List (κ × β) :=
  xs.foldl (fun acc x => updateAssoc comb default (key x) x acc) []

/-- Modelled from the spec: merge one incoming `(key, partialAcc)` pair
into the destination accumulator, combining same-key accumulators with
`reduce` (§4.4 step 3). -/
def mergeStep {κ β : Type} [DecidableEq κ] (reduce : β → β → β) :
    List (κ × β) → κ × β → List (κ × β)
  | [], p => [p]
  | q :: rest, p =>
      if q.1 = p.1 then (q.1, reduce q.2 p.2) :: rest
      else q :: mergeStep reduce rest p

/-- Modelled from the spec: the global merge of a destination partition's
incoming pairs (§4.4 step 3). -/
def mergeFold {κ β : Type} [DecidableEq κ] (reduce : β → β → β)
    (xs : List (κ × β)) : List (κ × β) :=
  xs.foldl (mergeStep reduce) []

/-- Modelled from the spec: the transpose step's concatenation of one
bucket's deferred sub-sequences across all source partitions, itself a
combinator over deferred values (§4.4). -/
def concatDefs {e : Ty} (parts : List (Deferred (.list e))) :
    Deferred (.list e) :=
  parts.foldl (fun acc p => acc.join p (.list e) (fun x y => x ++ y))
    (Deferred.lift (.list e) [])

/-- Modelled from the spec: `fold_by` from the missing partition module
(§4.4): local per-partition grouped pre-aggregation, bucket-then-transpose
shuffle with bucket id `hash(key) mod n`, then a per-destination global
merge. The hash function is a parameter of the model. -/
def fold_by {a k b : Ty} (parts : List (Deferred (.list a)))
    (key : a.denote → k.denote) (default : b.denote)
    (binop : b.denote → a.denote → b.denote)
    (reduce : b.denote → b.denote → b.denote)
    (hash : k.denote → Nat) (n : Nat) :
    List (Deferred (.list (.pair k b))) :=
  let locals := batch_apply parts (.list (.pair k b))
    (fun _ vs => groupFold key default binop vs)
  let outs := (List.range n).map (fun j =>
    concatDefs (locals.map (fun src =>
      src.apply (.list (.pair k b))
        (fun l => l.filter (fun kv => hash kv.1 % n == j)))))
  batch_apply outs (.list (.pair k b)) (fun _ l => mergeFold reduce l)

/-- `Collection::fold_by` (lib.rs lines 79-89), delegating to the
spec-modelled `fold_by` shuffle. -/
def Collection.fold_by {c : Ty} (k b : Ty) (col : Collection c)
    (key : c.denote → k.denote) (default : b.denote)
    (binop : b.denote → c.denote → b.denote)
    (reduce : b.denote → b.denote → b.denote)
    (partitions : Nat) (hash : k.denote → Nat) : Collection (.pair k b) :=
  ⟨Tange.fold_by col.partitions key default binop reduce hash partitions⟩

theorem updateAssoc_keys {α κ β : Type} [DecidableEq κ] (comb : β → α → β)
    (default : β) (k : κ) (x : α) :
    ∀ l : List (κ × β), (updateAssoc comb default k x l).map Prod.fst =
      if k ∈ l.map Prod.fst then l.map Prod.fst
      else l.map Prod.fst ++ [k] := by
  intro l
  induction l with
  | nil => simp [updateAssoc]
  | cons p rest ih =>
    obtain ⟨k2, b2⟩ := p
    by_cases hk : k2 = k
    · subst hk
      simp [updateAssoc]
    · simp only [updateAssoc, if_neg hk, List.map_cons, ih]
      by_cases hmem : k ∈ rest.map Prod.fst
      · rw [if_pos hmem, if_pos (by simp [hmem])]
      · rw [if_neg hmem, if_neg ?hnot]
        · simp
        · simp only [List.mem_cons]
          push_neg
          exact ⟨fun he => hk he.symm, hmem⟩

theorem updateAssoc_keys_nodup {α κ β : Type} [DecidableEq κ]
    (comb : β → α → β) (default : β) (k : κ) (x : α) (l : List (κ × β))
    (hl : (l.map Prod.fst).Nodup) :
    ((updateAssoc comb default k x l).map Prod.fst).Nodup := by
  rw [updateAssoc_keys]
  by_cases hmem : k ∈ l.map Prod.fst
  · rw [if_pos hmem]
    exact hl
  · rw [if_neg hmem, List.nodup_append]
    exact ⟨hl, List.nodup_singleton k,
      by simpa [List.disjoint_singleton] using hmem⟩

theorem groupFold_loop_nodup {α κ β : Type} [DecidableEq κ] (key : α → κ)
    (default : β) (comb : β → α → β) :
    ∀ (xs : List α) (acc : List (κ × β)), (acc.map Prod.fst).Nodup →
      ((xs.foldl (fun acc x => updateAssoc comb default (key x) x acc)
        acc).map Prod.fst).Nodup := by
  intro xs
  induction xs with
  | nil =>
    intro acc h
    simpa using h
  | cons x t ih =>
    intro acc h
    exact ih _ (updateAssoc_keys_nodup comb default (key x) x acc h)

/-- The keys produced by the local grouped pre-aggregation are pairwise
distinct. -/
theorem groupFold_keys_nodup {α κ β : Type} [DecidableEq κ] (key : α → κ)
    (default : β) (comb : β → α → β) (xs : List α) :
    ((groupFold key default comb xs).map Prod.fst).Nodup :=
  groupFold_loop_nodup key default comb xs [] (by simp)

theorem mergeStep_notmem {κ β : Type} [DecidableEq κ] (reduce : β → β → β)
    (p : κ × β) :
    ∀ acc : List (κ × β), p.1 ∉ acc.map Prod.fst →
      mergeStep reduce acc p = acc ++ [p] := by
  intro acc
  induction acc with
  | nil => intro; rfl
  | cons q rest ih =>
    intro hmem
    simp only [List.map_cons, List.mem_cons] at hmem
    push_neg at hmem
    rw [mergeStep, if_neg (fun he => hmem.1 he.symm), ih hmem.2]
    rfl

theorem mergeFold_loop {κ β : Type} [DecidableEq κ] (reduce : β → β → β) :
    ∀ (xs acc : List (κ × β)), (xs.map Prod.fst).Nodup →
      (∀ q ∈ xs, q.1 ∉ acc.map Prod.fst) →
      xs.foldl (mergeStep reduce) acc = acc ++ xs := by
  intro xs
  induction xs with
  | nil =>
    intro acc _ _
    simp
  | cons p t ih =>
    intro acc hnodup hdisj
    simp only [List.map_cons, List.nodup_cons] at hnodup
    simp only [List.foldl_cons]
    rw [mergeStep_notmem reduce p acc (hdisj p (by simp))]
    rw [ih (acc ++ [p]) hnodup.2 ?hdisj2]
    · simp
    · intro q hq
      simp only [List.map_append, List.mem_append, List.map_cons,
        List.map_nil, List.mem_singleton]
      push_neg
      refine ⟨hdisj q (List.mem_cons_of_mem _ hq), ?_⟩
      intro he
      exact hnodup.1 (he ▸ List.mem_map_of_mem Prod.fst hq)

/-- The global merge is the identity on a pair list whose keys are already
pairwise distinct (no two accumulators share a key). -/
theorem mergeFold_nodup {κ β : Type} [DecidableEq κ] (reduce : β → β → β)
    (xs : List (κ × β)) (h : (xs.map Prod.fst).Nodup) :
    mergeFold reduce xs = xs := by
  have := mergeFold_loop reduce xs [] h (by simp)
  simpa [mergeFold] using this

theorem concatDefs_loop_run {e : Ty} :
    ∀ (parts : List (Deferred (.list e))) (vals : List (List e.denote))
      (acc : Deferred (.list e)) (accv : List e.denote),
      acc.run = some accv → parts.map Deferred.run = vals.map some →
      (parts.foldl (fun acc p => acc.join p (.list e) (fun x y => x ++ y))
        acc).run = some (accv ++ vals.flatten) := by
  intro parts
  induction parts with
  | nil =>
    intro vals acc accv hacc h
    cases vals with
    | nil => simpa using hacc
    | cons v t => simp at h
  | cons p t ih =>
    intro vals acc accv hacc h
    cases vals with
    | nil => simp at h
    | cons v vt =>
      simp only [List.map_cons, List.cons.injEq] at h
      simp only [List.foldl_cons]
      have hj : (acc.join p (.list e) (fun x y => x ++ y)).run =
          some (accv ++ v) := by
        rw [join_run, hacc, h.1]
        rfl
      rw [ih vt _ (accv ++ v) hj h.2]
      simp

theorem concatDefs_run {e : Ty} (parts : List (Deferred (.list e)))
    (vals : List (List e.denote))
    (h : parts.map Deferred.run = vals.map some) :
    (concatDefs parts).run = some vals.flatten := by
  have := concatDefs_loop_run parts vals (Deferred.lift (.list e) [])
    [] (by simp) h
  simpa [concatDefs] using this

/-- Running the spec-modelled `fold_by` on a single-partition source: every
output pair set equals the local grouped aggregation of the input,
independent of the bucket count and hash function. -/
theorem fold_by_single_run {a k b : Ty} (input : List a.denote)
    (key : a.denote → k.denote) (default : b.denote)
    (binop : b.denote → a.denote → b.denote)
    (reduce : b.denote → b.denote → b.denote)
    (hash : k.denote → Nat) (n : Nat) (hn : 1 ≤ n) :
    ∃ r, (Collection.mk (fold_by [Deferred.lift (.list a) input]
        key default binop reduce hash n)).run = some r ∧
      ∀ x, x ∈ r ↔ x ∈ groupFold key default binop input := by
  set L := groupFold key default binop input with hLdef
  set vals := (List.range n).map
    (fun j => L.filter (fun kv => hash kv.1 % n == j)) with hvalsdef
  set dL := (Deferred.lift (.list a) input).apply (.list (.pair k b))
    (fun vs => groupFold key default binop vs) with hdLdef
  set outs := (List.range n).map (fun j =>
    concatDefs [dL.apply (.list (.pair k b))
      (fun l => l.filter (fun kv => hash kv.1 % n == j))]) with houtsdef
  have hdL : dL.run = some L := by
    rw [hdLdef, apply_run, lift_run]
    rfl
  have houts : outs.map Deferred.run = vals.map some := by
    rw [houtsdef, hvalsdef, List.map_map, List.map_map]
    apply List.map_congr_left
    intro j hj
    show (concatDefs [dL.apply (.list (.pair k b))
        (fun l => l.filter (fun kv => hash kv.1 % n == j))]).run =
      some (L.filter (fun kv => hash kv.1 % n == j))
    have hrun1 : (dL.apply (.list (.pair k b))
        (fun l => l.filter (fun kv => hash kv.1 % n == j))).run =
        some (L.filter (fun kv => hash kv.1 % n == j)) := by
      rw [apply_run, hdL]
      rfl
    have hcd := concatDefs_run [dL.apply (.list (.pair k b))
        (fun l => l.filter (fun kv => hash kv.1 % n == j))]
      [L.filter (fun kv => hash kv.1 % n == j)] (by simp [hrun1])
    simpa using hcd
  have hkeysnodup := groupFold_keys_nodup key default binop input
  have hmergeid : vals.map (fun l => mergeFold reduce l) = vals := by
    rw [hvalsdef, List.map_map]
    apply List.map_congr_left
    intro j hj
    show mergeFold reduce (L.filter (fun kv => hash kv.1 % n == j)) =
      L.filter (fun kv => hash kv.1 % n == j)
    apply mergeFold_nodup
    exact List.Sublist.nodup
      ((List.filter_sublist L).map Prod.fst) (hLdef ▸ hkeysnodup)
  have hfinals : (batch_apply outs (.list (.pair k b))
      (fun _ l => mergeFold reduce l)).map Deferred.run = vals.map some := by
    have hb := batch_apply_runs_const (.list (.pair k b)) outs
      (fun l => mergeFold reduce l) vals houts
    rw [hmergeid] at hb
    exact hb
  have hvalsne : vals ≠ [] := by
    rw [hvalsdef]
    intro hcon
    have := congrArg List.length hcon
    simp only [List.length_map, List.length_range, List.length_nil] at this
    omega
  refine ⟨vals.flatten, ?_, ?_⟩
  · show (Collection.mk (batch_apply outs (.list (.pair k b))
        (fun _ l => mergeFold reduce l))).run = some vals.flatten
    exact run_values _ vals hfinals hvalsne
  · intro x
    rw [List.mem_flatten]
    constructor
    · rintro ⟨lst, hlst, hx⟩
      rw [hvalsdef] at hlst
      obtain ⟨j, hj, rfl⟩ := List.mem_map.mp hlst
      exact (List.mem_filter.mp hx).1
    · intro hx
      refine ⟨L.filter (fun kv => hash kv.1 % n == hash x.1 % n), ?_, ?_⟩
      · rw [hvalsdef]
        exact List.mem_map.mpr ⟨hash x.1 % n,
          List.mem_range.mpr (Nat.mod_lt _ (by omega)), rfl⟩
      · exact List.mem_filter.mpr ⟨hx, by simp⟩

/-- C3: for every fixed input and all partition counts (and hash choices)
at least 1, `fold_by` with the counting aggregation yields the same final
set of (key, count) pairs, equal to the grouped count of the input. -/
theorem fold_by_count_partition_independent (input : List Int)
    (n1 n2 : Nat) (hash1 hash2 : Int → Nat) (hn1 : 1 ≤ n1) (hn2 : 1 ≤ n2) :
    ∃ r1 r2,
      ((Collection.from_vec Ty.int input).fold_by Ty.int Ty.nat
          (fun x => x) 0 (fun acc _ => acc + 1) (fun x y => x + y)
          n1 hash1).run = some r1 ∧
      ((Collection.from_vec Ty.int input).fold_by Ty.int Ty.nat
          (fun x => x) 0 (fun acc _ => acc + 1) (fun x y => x + y)
          n2 hash2).run = some r2 ∧
      (∀ x, x ∈ r1 ↔ x ∈ r2) ∧
      (∀ x, x ∈ r1 ↔
        x ∈ groupFold (fun v => v) 0 (fun acc _ => acc + 1) input) := by
  obtain ⟨r1, hr1, hm1⟩ := @fold_by_single_run Ty.int Ty.int Ty.nat input
    (fun x => x) 0 (fun acc _ => acc + 1) (fun x y => x + y) hash1 n1 hn1
  obtain ⟨r2, hr2, hm2⟩ := @fold_by_single_run Ty.int Ty.int Ty.nat input
    (fun x => x) 0 (fun acc _ => acc + 1) (fun x y => x + y) hash2 n2 hn2
  refine ⟨r1, r2, hr1, hr2, ?_, hm1⟩
  intro x
  rw [hm1 x, hm2 x]

/-- C3 witness: `[1,2,3,1,2]` with `p = 1` and `p = 2` yields the same set
`{(1,2),(2,2),(3,1)}` of key/count pairs. -/
theorem fold_by_count_witness :
    ∃ r1 r2,
      ((Collection.from_vec Ty.int [1, 2, 3, 1, 2]).fold_by Ty.int Ty.nat
          (fun x => x) 0 (fun acc _ => acc + 1) (fun x y => x + y)
          1 Int.natAbs).run = some r1 ∧
      ((Collection.from_vec Ty.int [1, 2, 3, 1, 2]).fold_by Ty.int Ty.nat
          (fun x => x) 0 (fun acc _ => acc + 1) (fun x y => x + y)
          2 Int.natAbs).run = some r2 ∧
      (∀ x, x ∈ r1 ↔ x ∈ r2) ∧
      (∀ x, x ∈ r1 ↔ x ∈ ([(1, 2), (2, 2), (3, 1)] : List (Int × Nat))) := by
  obtain ⟨r1, r2, h1, h2, h3, h4⟩ := fold_by_count_partition_independent
    [1, 2, 3, 1, 2] 1 2 Int.natAbs Int.natAbs (by omega) (by omega)
  refine ⟨r1, r2, h1, h2, h3, ?_⟩
  have hgf : groupFold (fun v => v) 0 (fun acc _ => acc + 1)
      ([1, 2, 3, 1, 2] : List Int) = [(1, 2), (2, 2), (3, 1)] := by decide
  intro x
  rw [h4 x, hgf]

end Tange
